import Mathlib

set_option autoImplicit false

/-!
Verification of the DigiPIN spatial codec (src/digipin.js).

JS numbers are modelled as exact rationals: every arithmetic operation the
codec performs (subtraction, division by 4, scaling by a small integer) on
the dyadic values reachable from the region bounds is exact in IEEE double
precision as well, so the rational model is faithful on the codec's own
state. JS strings are modelled as lists of characters, and
String.prototype.toUpperCase by Char.toUpper per character: the two agree on
ASCII, and every alphabet or hyphen character is ASCII.
-/

namespace Digipin

/-- Geographical bound constant MIN_LAT = 2.5, src/digipin.js line 10. -/
def MIN_LAT : ℚ := 5 / 2

/-- Geographical bound constant MAX_LAT = 38.5, src/digipin.js line 11. -/
def MAX_LAT : ℚ := 77 / 2

/-- Geographical bound constant MIN_LON = 63.5, src/digipin.js line 12. -/
def MIN_LON : ℚ := 127 / 2

/-- Geographical bound constant MAX_LON = 99.5, src/digipin.js line 13. -/
def MAX_LON : ℚ := 199 / 2

/-- The 4x4 symbol grid DIGIPIN_GRID, src/digipin.js lines 16-21. -/
def DIGIPIN_GRID : List (List Char) :=
  [['F', 'C', '9', '8'],
   ['J', '3', '2', '7'],
   ['K', '4', '5', '6'],
   ['L', 'M', 'P', 'T']]

/-- Row/column lookup DIGIPIN_GRID[row][col] (line 62). Out-of-range indices
would throw in JS; they are unreachable (rows and columns are clamped to
[0, 3] first), so the total model returns an arbitrary default there. -/
def gridLookup (row col : ℕ) : Char :=
  (DIGIPIN_GRID.getD row []).getD col '!'

/-- Reverse lookup table CHAR_TO_POS, src/digipin.js lines 24-29: the
dictionary built by the double loop, written out in the same row-major
order it is built in. -/
def CHAR_TO_POS_LIST : List (Char × ℕ × ℕ) :=
  [('F', 0, 0), ('C', 0, 1), ('9', 0, 2), ('8', 0, 3),
   ('J', 1, 0), ('3', 1, 1), ('2', 1, 2), ('7', 1, 3),
   ('K', 2, 0), ('4', 2, 1), ('5', 2, 2), ('6', 2, 3),
   ('L', 3, 0), ('M', 3, 1), ('P', 3, 2), ('T', 3, 3)]

/-- CHAR_TO_POS[c]: the (row, col) of a grid character, absent for any
other character (the JS falsy test on a missing key, lines 91 and 138). -/
def CHAR_TO_POS (c : Char) : Option (ℕ × ℕ) :=
  (CHAR_TO_POS_LIST.find? fun e => e.1 == c).map fun e => e.2

/-- The 16-symbol DigiPIN alphabet, as the spec lists it. -/
def DIGIPIN_ALPHABET : List Char :=
  ['2', '3', '4', '5', '6', '7', '8', '9', 'C', 'F', 'J', 'K', 'L', 'M', 'P', 'T']

/-- The working rectangle of bounds that both loops narrow level by level. -/
structure Rect where
  minLat : ℚ
  maxLat : ℚ
  minLon : ℚ
  maxLon : ℚ
deriving DecidableEq, Repr

/-- The full bounding region both loops start from (lines 43-46, 96-99). -/
def INDIA_RECT : Rect := ⟨MIN_LAT, MAX_LAT, MIN_LON, MAX_LON⟩

/-- Index clamping Math.min(3, Math.max(0, i)), src/digipin.js lines 59-60. -/
def clampIdx (i : ℤ) : ℕ := (min 3 (max 0 i)).toNat

/-- The row selected in one encode iteration: floor of line 55 followed by
the clamp of line 59. -/
def encRow (lat : ℚ) (r : Rect) : ℕ :=
  clampIdx ⌊(r.maxLat - lat) / ((r.maxLat - r.minLat) / 4)⌋

/-- The column selected in one encode iteration: floor of line 56 followed
by the clamp of line 60. -/
def encCol (lon : ℚ) (r : Rect) : ℕ :=
  clampIdx ⌊(lon - r.minLon) / ((r.maxLon - r.minLon) / 4)⌋

/-- One narrowing of the working rectangle to the sub-cell (row, col). The
encode loop (lines 51-52 and 65-68) and the decode loop (lines 105-117)
perform exactly these updates, so the model shares the routine. -/
def narrow (r : Rect) (rc : ℕ × ℕ) : Rect :=
  let latDiv := (r.maxLat - r.minLat) / 4
  let lonDiv := (r.maxLon - r.minLon) / 4
  let newMaxLat := r.maxLat - rc.1 * latDiv
  let newMinLat := newMaxLat - latDiv
  let newMinLon := r.minLon + rc.2 * lonDiv
  let newMaxLon := newMinLon + lonDiv
  ⟨newMinLat, newMaxLat, newMinLon, newMaxLon⟩

/-- The (row, col) pairs chosen by n iterations of the encode loop of
src/digipin.js lines 50-69, starting from rectangle r. -/
def encodePositions (lat lon : ℚ) : ℕ → Rect → List (ℕ × ℕ)
  | 0, _ => []
  | n + 1, r =>
    (encRow lat r, encCol lon r) ::
      encodePositions lat lon n (narrow r (encRow lat r, encCol lon r))

/-- Folding the shared narrowing over a list of (row, col) pairs: the
rectangle part of both loops. -/
def narrowAll : List (ℕ × ℕ) → Rect → Rect
  | [], r => r
  | rc :: rest, r => narrowAll rest (narrow r rc)

/-- The 10 raw symbols the encode loop accumulates (line 62 over the 10
iterations of lines 50-69). -/
def encodeRaw (lat lon : ℚ) : List Char :=
  (encodePositions lat lon 10 INDIA_RECT).map fun rc => gridLookup rc.1 rc.2

/-- Hyphen insertion of line 72 and line 151:
slice(0,3) ++ hyphen ++ slice(3,6) ++ hyphen ++ slice(6,10). -/
def hyphenate334 (p : List Char) : List Char :=
  p.take 3 ++ '-' :: ((p.drop 3).take 3 ++ '-' :: (p.drop 6).take 4)

/-- encodeDigipin, src/digipin.js lines 37-73. -/
def encodeDigipin (lat lon : ℚ) : Option (List Char) :=
  if lat < MIN_LAT ∨ lat > MAX_LAT ∨ lon < MIN_LON ∨ lon > MAX_LON then none
  else some (hyphenate334 (encodeRaw lat lon))

/-- Normalization shared by decode, validate and format (lines 82, 134,
149): remove every hyphen, then uppercase. -/
def normalizePin (s : List Char) : List Char :=
  (s.filter fun c => c != '-').map Char.toUpper

/-- The record decodeDigipin returns (lines 121-125). -/
structure DecodeResult where
  lat : ℚ
  lon : ℚ
  bounds : Rect
deriving DecidableEq, Repr

/-- The (row, col) pairs the decode loop looks up for each character of a
(validated) pin, lines 102-103. The default is unreachable: decode only
folds over pins whose characters all have a position. -/
def pinPositions (p : List Char) : List (ℕ × ℕ) :=
  p.map fun c => (CHAR_TO_POS c).getD (0, 0)

/-- decodeDigipin, src/digipin.js lines 80-126. -/
def decodeDigipin (s : List Char) : Option DecodeResult :=
  let pin := normalizePin s
  if pin.length ≠ 10 then none
  else if pin.any fun c => (CHAR_TO_POS c).isNone then none
  else
    let f := narrowAll (pinPositions pin) INDIA_RECT
    some ⟨(f.minLat + f.maxLat) / 2, (f.minLon + f.maxLon) / 2, f⟩

/-- isValidDigipin, src/digipin.js lines 133-141. -/
def isValidDigipin (s : List Char) : Bool :=
  let pin := normalizePin s
  pin.length == 10 && pin.all fun c => (CHAR_TO_POS c).isSome

/-- formatDigipin, src/digipin.js lines 148-152. -/
def formatDigipin (s : List Char) : List Char :=
  let clean := normalizePin s
  if clean.length ≠ 10 then s else hyphenate334 clean

/-- isWithinBounds, src/digipin.js lines 160-162. -/
def isWithinBounds (lat lon : ℚ) : Bool :=
  decide (lat ≥ MIN_LAT) && decide (lat ≤ MAX_LAT) &&
    decide (lon ≥ MIN_LON) && decide (lon ≤ MAX_LON)

/-- Both spans of a rectangle are positive (the loop invariant that makes
the divisions meaningful). -/
def spansPos (r : Rect) : Prop :=
  0 < r.maxLat - r.minLat ∧ 0 < r.maxLon - r.minLon

/-- Closed membership of a point in a rectangle, the containment notion of
the round-trip property. -/
def containsPt (r : Rect) (lat lon : ℚ) : Prop :=
  r.minLat ≤ lat ∧ lat ≤ r.maxLat ∧ r.minLon ≤ lon ∧ lon ≤ r.maxLon

/-- Half-open membership matching the floor semantics of the encoder: a
cell owns its maximum-latitude edge and its minimum-longitude edge, and
cedes the opposite two edges to the neighbouring cells. -/
def halfOpenMem (r : Rect) (lat lon : ℚ) : Prop :=
  r.minLat < lat ∧ lat ≤ r.maxLat ∧ r.minLon ≤ lon ∧ lon < r.maxLon

/-- Base-4 value of the per-level digits g extracts from a position list,
most significant level first. -/
def digitVal (g : ℕ × ℕ → ℕ) (ps : List (ℕ × ℕ)) : ℕ :=
  ps.foldl (fun a rc => 4 * a + g rc) 0

/-! ### The clamp, the grid and the alphabet -/

theorem clampIdx_le (i : ℤ) : clampIdx i ≤ 3 := by
  unfold clampIdx; omega

theorem clampIdx_coe {i : ℤ} (h0 : 0 ≤ i) (h3 : i ≤ 3) : (clampIdx i : ℤ) = i := by
  unfold clampIdx; omega

theorem clampIdx_of_ge {i : ℤ} (h : 4 ≤ i) : clampIdx i = 3 := by
  unfold clampIdx; omega

theorem grid_char_to_pos {i j : ℕ} (hi : i ≤ 3) (hj : j ≤ 3) :
    CHAR_TO_POS (gridLookup i j) = some (i, j) := by
  interval_cases i <;> interval_cases j <;> rfl

theorem grid_mem_alphabet {i j : ℕ} (hi : i ≤ 3) (hj : j ≤ 3) :
    gridLookup i j ∈ DIGIPIN_ALPHABET := by
  interval_cases i <;> interval_cases j <;> decide

theorem alphabet_spec : ∀ c ∈ DIGIPIN_ALPHABET,
    Char.toUpper c = c ∧ c ≠ '-' ∧ (CHAR_TO_POS c).isSome = true := by decide

theorem char_to_pos_mem {c : Char} {rc : ℕ × ℕ} (h : CHAR_TO_POS c = some rc) :
    c ∈ DIGIPIN_ALPHABET ∧ rc.1 ≤ 3 ∧ rc.2 ≤ 3 := by
  unfold CHAR_TO_POS at h
  rcases ho : CHAR_TO_POS_LIST.find? fun e => e.1 == c with _ | e
  · rw [ho] at h; cases h
  · rw [ho] at h
    have hmem := List.mem_of_find?_eq_some ho
    have hc : e.1 = c := by simpa using List.find?_some ho
    have he2 : e.2 = rc := by simpa using h
    subst hc; subst he2
    fin_cases hmem <;> decide

theorem char_to_pos_isSome_iff {c : Char} :
    (CHAR_TO_POS c).isSome = true ↔ c ∈ DIGIPIN_ALPHABET := by
  constructor
  · intro h
    rcases Option.isSome_iff_exists.mp h with ⟨rc, hrc⟩
    exact (char_to_pos_mem hrc).1
  · intro h
    fin_cases h <;> decide

/-! ### Facts about ASCII upper-casing -/

theorem char_toNat_ofNat {m : ℕ} (h : m < 55296) : (Char.ofNat m).toNat = m := by
  have hv : Nat.isValidChar m := Or.inl h
  rw [Char.ofNat, dif_pos hv]
  rfl

theorem toUpper_toNat (c : Char) :
    (Char.toUpper c).toNat =
      if 97 ≤ c.toNat ∧ c.toNat ≤ 122 then c.toNat - 32 else c.toNat := by
  unfold Char.toUpper
  split <;> rename_i h
  · rw [if_pos h]
    exact char_toNat_ofNat (by omega)
  · rw [if_neg h]

theorem toUpper_eq_self {c : Char} (h : ¬(97 ≤ c.toNat ∧ c.toNat ≤ 122)) :
    Char.toUpper c = c := by
  unfold Char.toUpper
  exact if_neg h

theorem toUpper_idem (c : Char) : (Char.toUpper c).toUpper = Char.toUpper c := by
  by_cases h : 97 ≤ c.toNat ∧ c.toNat ≤ 122
  · have h1 : (Char.toUpper c).toNat = c.toNat - 32 := by
      rw [toUpper_toNat, if_pos h]
    exact toUpper_eq_self (by omega)
  · have h1 : Char.toUpper c = c := toUpper_eq_self h
    rw [h1]; exact h1

theorem toUpper_ne_hyphen {c : Char} (h : c ≠ '-') : Char.toUpper c ≠ '-' := by
  intro he
  by_cases hc : 97 ≤ c.toNat ∧ c.toNat ≤ 122
  · have h1 : (Char.toUpper c).toNat = c.toNat - 32 := by
      rw [toUpper_toNat, if_pos hc]
    rw [he] at h1
    have h45 : ('-' : Char).toNat = 45 := rfl
    omega
  · exact h (by rwa [toUpper_eq_self hc] at he)

/-! ### The narrowing step -/

theorem narrow_minLat (r : Rect) (rc : ℕ × ℕ) :
    (narrow r rc).minLat = r.maxLat - (rc.1 + 1) * ((r.maxLat - r.minLat) / 4) := by
  simp only [narrow]; ring

theorem narrow_maxLat (r : Rect) (rc : ℕ × ℕ) :
    (narrow r rc).maxLat = r.maxLat - rc.1 * ((r.maxLat - r.minLat) / 4) := by
  simp only [narrow]

theorem narrow_minLon (r : Rect) (rc : ℕ × ℕ) :
    (narrow r rc).minLon = r.minLon + rc.2 * ((r.maxLon - r.minLon) / 4) := by
  simp only [narrow]

theorem narrow_maxLon (r : Rect) (rc : ℕ × ℕ) :
    (narrow r rc).maxLon = r.minLon + (rc.2 + 1) * ((r.maxLon - r.minLon) / 4) := by
  simp only [narrow]; ring

theorem narrow_spansPos (rc : ℕ × ℕ) {r : Rect} (h : spansPos r) :
    spansPos (narrow r rc) := by
  obtain ⟨h1, h2⟩ := h
  constructor
  · rw [narrow_maxLat, narrow_minLat]; ring_nf; linarith
  · rw [narrow_maxLon, narrow_minLon]; ring_nf; linarith

theorem floor_clamp_le {x : ℚ} (h0 : 0 ≤ x) (h4 : x ≤ 4) :
    (clampIdx ⌊x⌋ : ℚ) ≤ x ∧ x ≤ clampIdx ⌊x⌋ + 1 := by
  have hf0 : 0 ≤ ⌊x⌋ := Int.floor_nonneg.mpr h0
  by_cases h3 : ⌊x⌋ ≤ 3
  · have hc : (clampIdx ⌊x⌋ : ℤ) = ⌊x⌋ := clampIdx_coe hf0 h3
    have hcQ : ((clampIdx ⌊x⌋ : ℕ) : ℚ) = ((⌊x⌋ : ℤ) : ℚ) := by exact_mod_cast hc
    constructor
    · rw [hcQ]; exact Int.floor_le x
    · rw [hcQ]; have := Int.lt_floor_add_one x; linarith
  · push_neg at h3
    have h4' : (4 : ℤ) ≤ ⌊x⌋ := by omega
    have hx4 : (4 : ℚ) ≤ x := by
      calc (4 : ℚ) ≤ (⌊x⌋ : ℚ) := by exact_mod_cast h4'
        _ ≤ x := Int.floor_le x
    have hx : x = 4 := le_antisymm h4 hx4
    rw [clampIdx_of_ge h4', hx]
    norm_num

theorem clamp_floor_eq {x : ℚ} {k : ℕ} (hk : k ≤ 3) (h1 : (k : ℚ) ≤ x)
    (h2 : x < k + 1) : clampIdx ⌊x⌋ = k := by
  have hf : ⌊x⌋ = (k : ℤ) := by
    rw [Int.floor_eq_iff]
    constructor
    · exact_mod_cast h1
    · push_cast; exact_mod_cast h2
  rw [hf]
  unfold clampIdx; omega

theorem clamp_bounds_mul {y S : ℚ} (hS : 0 < S) (h0 : 0 ≤ y) (h4 : y ≤ S) :
    (clampIdx ⌊y / (S / 4)⌋ : ℚ) * (S / 4) ≤ y ∧
      y ≤ ((clampIdx ⌊y / (S / 4)⌋ : ℚ) + 1) * (S / 4) := by
  have hd : 0 < S / 4 := by linarith
  have hx0 : 0 ≤ y / (S / 4) := div_nonneg h0 hd.le
  have hx4 : y / (S / 4) ≤ 4 := by
    rw [div_le_iff₀ hd]; linarith
  obtain ⟨hl, hr⟩ := floor_clamp_le hx0 hx4
  have hxd : y / (S / 4) * (S / 4) = y := div_mul_cancel₀ _ (ne_of_gt hd)
  constructor
  · have := mul_le_mul_of_nonneg_right hl hd.le
    rwa [hxd] at this
  · have := mul_le_mul_of_nonneg_right hr hd.le
    rwa [hxd] at this

theorem encRow_bounds {lat : ℚ} {r : Rect} (hs : 0 < r.maxLat - r.minLat)
    (h1 : r.minLat ≤ lat) (h2 : lat ≤ r.maxLat) :
    (encRow lat r : ℚ) * ((r.maxLat - r.minLat) / 4) ≤ r.maxLat - lat ∧
      r.maxLat - lat ≤ ((encRow lat r : ℚ) + 1) * ((r.maxLat - r.minLat) / 4) := by
  unfold encRow
  exact clamp_bounds_mul hs (by linarith) (by linarith)

theorem encCol_bounds {lon : ℚ} {r : Rect} (hs : 0 < r.maxLon - r.minLon)
    (h1 : r.minLon ≤ lon) (h2 : lon ≤ r.maxLon) :
    (encCol lon r : ℚ) * ((r.maxLon - r.minLon) / 4) ≤ lon - r.minLon ∧
      lon - r.minLon ≤ ((encCol lon r : ℚ) + 1) * ((r.maxLon - r.minLon) / 4) := by
  unfold encCol
  exact clamp_bounds_mul hs (by linarith) (by linarith)

theorem containsPt_narrow {lat lon : ℚ} {r : Rect} (hs : spansPos r)
    (hc : containsPt r lat lon) :
    containsPt (narrow r (encRow lat r, encCol lon r)) lat lon := by
  obtain ⟨hs1, hs2⟩ := hs
  obtain ⟨h1, h2, h3, h4⟩ := hc
  obtain ⟨ha, hb⟩ := encRow_bounds hs1 h1 h2
  obtain ⟨hc1, hc2⟩ := encCol_bounds hs2 h3 h4
  refine ⟨?_, ?_, ?_, ?_⟩
  · rw [narrow_minLat]; dsimp only; linarith
  · rw [narrow_maxLat]; dsimp only; linarith
  · rw [narrow_minLon]; dsimp only; linarith
  · rw [narrow_maxLon]; dsimp only; linarith

theorem enc_eq_of_halfOpen_narrow {lat lon : ℚ} {r : Rect} {rc : ℕ × ℕ}
    (hs : spansPos r) (h1 : rc.1 ≤ 3) (h2 : rc.2 ≤ 3)
    (hm : halfOpenMem (narrow r rc) lat lon) :
    encRow lat r = rc.1 ∧ encCol lon r = rc.2 := by
  obtain ⟨hs1, hs2⟩ := hs
  obtain ⟨ha, hb, hc, hd⟩ := hm
  rw [narrow_minLat] at ha
  rw [narrow_maxLat] at hb
  rw [narrow_minLon] at hc
  rw [narrow_maxLon] at hd
  have hdl : 0 < (r.maxLat - r.minLat) / 4 := by linarith
  have hdo : 0 < (r.maxLon - r.minLon) / 4 := by linarith
  constructor
  · unfold encRow
    apply clamp_floor_eq h1
    · rw [le_div_iff₀ hdl]; linarith
    · rw [div_lt_iff₀ hdl]; linarith
  · unfold encCol
    apply clamp_floor_eq h2
    · rw [le_div_iff₀ hdo]; linarith
    · rw [div_lt_iff₀ hdo]; linarith

theorem narrow_subset {r : Rect} {rc : ℕ × ℕ} (hs : spansPos r)
    (h1 : rc.1 ≤ 3) (h2 : rc.2 ≤ 3) :
    r.minLat ≤ (narrow r rc).minLat ∧ (narrow r rc).maxLat ≤ r.maxLat ∧
      r.minLon ≤ (narrow r rc).minLon ∧ (narrow r rc).maxLon ≤ r.maxLon := by
  obtain ⟨hs1, hs2⟩ := hs
  have c1 : ((rc.1 : ℚ) + 1) ≤ 4 := by
    have : (rc.1 : ℚ) ≤ 3 := by exact_mod_cast h1
    linarith
  have c2 : ((rc.2 : ℚ) + 1) ≤ 4 := by
    have : (rc.2 : ℚ) ≤ 3 := by exact_mod_cast h2
    linarith
  have p1 : (0 : ℚ) ≤ rc.1 := Nat.cast_nonneg _
  have p2 : (0 : ℚ) ≤ rc.2 := Nat.cast_nonneg _
  refine ⟨?_, ?_, ?_, ?_⟩
  · rw [narrow_minLat]
    have := mul_le_mul_of_nonneg_right c1
      (by linarith : (0 : ℚ) ≤ (r.maxLat - r.minLat) / 4)
    linarith
  · rw [narrow_maxLat]
    have := mul_nonneg p1 (by linarith : (0 : ℚ) ≤ (r.maxLat - r.minLat) / 4)
    linarith
  · rw [narrow_minLon]
    have := mul_nonneg p2 (by linarith : (0 : ℚ) ≤ (r.maxLon - r.minLon) / 4)
    linarith
  · rw [narrow_maxLon]
    have := mul_le_mul_of_nonneg_right c2
      (by linarith : (0 : ℚ) ≤ (r.maxLon - r.minLon) / 4)
    linarith

/-! ### The two loops -/

theorem spansPos_india : spansPos INDIA_RECT := by
  constructor <;> norm_num [INDIA_RECT, MIN_LAT, MAX_LAT, MIN_LON, MAX_LON]

theorem narrowAll_spansPos {ps : List (ℕ × ℕ)} :
    ∀ {r : Rect}, spansPos r → spansPos (narrowAll ps r) := by
  induction ps with
  | nil => intro r h; exact h
  | cons rc rest ih => intro r h; exact ih (narrow_spansPos rc h)

theorem narrowAll_subset {ps : List (ℕ × ℕ)} :
    ∀ {r : Rect}, spansPos r → (∀ rc ∈ ps, rc.1 ≤ 3 ∧ rc.2 ≤ 3) →
      r.minLat ≤ (narrowAll ps r).minLat ∧ (narrowAll ps r).maxLat ≤ r.maxLat ∧
        r.minLon ≤ (narrowAll ps r).minLon ∧ (narrowAll ps r).maxLon ≤ r.maxLon := by
  induction ps with
  | nil => intro r _ _; exact ⟨le_refl _, le_refl _, le_refl _, le_refl _⟩
  | cons rc rest ih =>
    intro r hs hb
    have h1 := hb rc (List.mem_cons_self _ _)
    have hsub := narrow_subset hs h1.1 h1.2
    have hrec := ih (narrow_spansPos rc hs) fun p hp => hb p (List.mem_cons_of_mem _ hp)
    exact ⟨le_trans hsub.1 hrec.1, le_trans hrec.2.1 hsub.2.1,
      le_trans hsub.2.2.1 hrec.2.2.1, le_trans hrec.2.2.2 hsub.2.2.2⟩

theorem encodePositions_length (lat lon : ℚ) :
    ∀ (n : ℕ) (r : Rect), (encodePositions lat lon n r).length = n := by
  intro n
  induction n with
  | zero => intro r; rfl
  | succ n ih => intro r; simp [encodePositions, ih]

theorem encodePositions_bounds (lat lon : ℚ) :
    ∀ (n : ℕ) (r : Rect), ∀ rc ∈ encodePositions lat lon n r, rc.1 ≤ 3 ∧ rc.2 ≤ 3 := by
  intro n
  induction n with
  | zero => intro r rc h; cases h
  | succ n ih =>
    intro r rc h
    rcases List.mem_cons.mp h with he | hm
    · subst he; exact ⟨clampIdx_le _, clampIdx_le _⟩
    · exact ih _ rc hm

theorem encode_narrowAll_contains {lat lon : ℚ} :
    ∀ (n : ℕ) {r : Rect}, spansPos r → containsPt r lat lon →
      containsPt (narrowAll (encodePositions lat lon n r) r) lat lon := by
  intro n
  induction n with
  | zero => intro r _ hc; exact hc
  | succ n ih =>
    intro r hs hc
    exact ih (narrow_spansPos _ hs) (containsPt_narrow hs hc)

theorem encodePositions_eq_of_halfOpen {lat lon : ℚ} :
    ∀ (ps : List (ℕ × ℕ)) {r : Rect}, spansPos r →
      (∀ rc ∈ ps, rc.1 ≤ 3 ∧ rc.2 ≤ 3) →
      halfOpenMem (narrowAll ps r) lat lon →
      encodePositions lat lon ps.length r = ps := by
  intro ps
  induction ps with
  | nil => intro r _ _ _; rfl
  | cons rc rest ih =>
    intro r hs hb hm
    obtain ⟨i, j⟩ := rc
    have hrc := hb (i, j) (List.mem_cons_self _ _)
    have hs' := narrow_spansPos (i, j) hs
    have hbrest : ∀ p ∈ rest, p.1 ≤ 3 ∧ p.2 ≤ 3 :=
      fun p hp => hb p (List.mem_cons_of_mem _ hp)
    have hsub := narrowAll_subset hs' hbrest
    have hm' : halfOpenMem (narrow r (i, j)) lat lon := by
      obtain ⟨a, b, c, d⟩ := hm
      exact ⟨lt_of_le_of_lt hsub.1 a, le_trans b hsub.2.1,
        le_trans hsub.2.2.1 c, lt_of_lt_of_le d hsub.2.2.2⟩
    obtain ⟨hr, hc⟩ := enc_eq_of_halfOpen_narrow hs hrc.1 hrc.2 hm'
    show (encRow lat r, encCol lon r) ::
        encodePositions lat lon rest.length (narrow r (encRow lat r, encCol lon r)) =
      (i, j) :: rest
    rw [hr, hc]
    exact congrArg _ (ih hs' hbrest hm)

/-! ### Base-4 digit values of a position list -/

theorem digitVal_foldl (g : ℕ × ℕ → ℕ) :
    ∀ (ps : List (ℕ × ℕ)) (a : ℕ),
      ps.foldl (fun x rc => 4 * x + g rc) a = a * 4 ^ ps.length + digitVal g ps := by
  intro ps
  induction ps with
  | nil => intro a; simp [digitVal]
  | cons rc rest ih =>
    intro a
    have h2 : digitVal g (rc :: rest) =
        List.foldl (fun x p => 4 * x + g p) (4 * 0 + g rc) rest := rfl
    rw [List.foldl_cons, ih, h2, ih]
    simp [List.length_cons]
    ring

theorem digitVal_cons (g : ℕ × ℕ → ℕ) (rc : ℕ × ℕ) (ps : List (ℕ × ℕ)) :
    digitVal g (rc :: ps) = g rc * 4 ^ ps.length + digitVal g ps := by
  have h2 : digitVal g (rc :: ps) =
      List.foldl (fun x p => 4 * x + g p) (4 * 0 + g rc) ps := rfl
  rw [h2, digitVal_foldl]
  norm_num

theorem digitVal_concat (g : ℕ × ℕ → ℕ) (ps : List (ℕ × ℕ)) (rc : ℕ × ℕ) :
    digitVal g (ps ++ [rc]) = 4 * digitVal g ps + g rc := by
  unfold digitVal
  rw [List.foldl_append]
  rfl

theorem digitVal_mod_getLast? (g : ℕ × ℕ → ℕ) {ps : List (ℕ × ℕ)} {rc : ℕ × ℕ}
    (h : ps.getLast? = some rc) : digitVal g ps % 4 = g rc % 4 := by
  induction ps using List.reverseRecOn with
  | nil => cases h
  | append_singleton l a _ =>
    rw [List.getLast?_concat] at h
    have ha : a = rc := by injection h
    subst ha
    rw [digitVal_concat]
    omega

theorem narrowAll_formula :
    ∀ (ps : List (ℕ × ℕ)) (r : Rect),
      (narrowAll ps r).maxLat =
          r.maxLat - (r.maxLat - r.minLat) * digitVal Prod.fst ps / 4 ^ ps.length ∧
        (narrowAll ps r).minLat =
          r.maxLat - (r.maxLat - r.minLat) * (digitVal Prod.fst ps + 1) / 4 ^ ps.length ∧
        (narrowAll ps r).minLon =
          r.minLon + (r.maxLon - r.minLon) * digitVal Prod.snd ps / 4 ^ ps.length ∧
        (narrowAll ps r).maxLon =
          r.minLon + (r.maxLon - r.minLon) * (digitVal Prod.snd ps + 1) / 4 ^ ps.length := by
  intro ps
  induction ps with
  | nil =>
    intro r
    refine ⟨?_, ?_, ?_, ?_⟩ <;> simp [narrowAll, digitVal]
  | cons rc rest ih =>
    intro r
    obtain ⟨e1, e2, e3, e4⟩ := ih (narrow r rc)
    have h4 : ((4 : ℚ) ^ rest.length) ≠ 0 := by positivity
    refine ⟨?_, ?_, ?_, ?_⟩
    · show (narrowAll rest (narrow r rc)).maxLat = _
      rw [e1, narrow_maxLat, narrow_minLat, digitVal_cons]
      push_cast
      rw [List.length_cons]
      field_simp
      ring
    · show (narrowAll rest (narrow r rc)).minLat = _
      rw [e2, narrow_maxLat, narrow_minLat, digitVal_cons]
      push_cast
      rw [List.length_cons]
      field_simp
      ring
    · show (narrowAll rest (narrow r rc)).minLon = _
      rw [e3, narrow_minLon, narrow_maxLon, digitVal_cons]
      push_cast
      rw [List.length_cons]
      field_simp
      ring
    · show (narrowAll rest (narrow r rc)).maxLon = _
      rw [e4, narrow_minLon, narrow_maxLon, digitVal_cons]
      push_cast
      rw [List.length_cons]
      field_simp
      ring

/-! ### Normalization, hyphenation and the two validated forms -/

theorem normalizePin_hyphenate {p : List Char} (hlen : p.length = 10)
    (hup : ∀ c ∈ p, Char.toUpper c = c) (hhy : ∀ c ∈ p, c ≠ '-') :
    normalizePin (hyphenate334 p) = p := by
  have hfilter : ∀ l : List Char, l ⊆ p → l.filter (fun c => c != '-') = l := by
    intro l hl
    apply List.filter_eq_self.mpr
    intro c hc
    simpa using hhy c (hl hc)
  have hassemble : p.take 3 ++ ((p.drop 3).take 3 ++ (p.drop 6).take 4) = p := by
    have h6 : p.drop 6 = (p.drop 3).drop 3 := by rw [List.drop_drop]
    have hC : ((p.drop 3).drop 3).take 4 = (p.drop 3).drop 3 :=
      List.take_of_length_le (by simp [hlen])
    rw [h6, hC, List.take_append_drop, List.take_append_drop]
  unfold normalizePin hyphenate334
  rw [List.filter_append, List.filter_cons_of_neg (by decide), List.filter_append,
    List.filter_cons_of_neg (by decide)]
  rw [hfilter _ (List.take_subset _ _),
    hfilter _ (fun c hc => List.drop_subset _ _ (List.take_subset _ _ hc)),
    hfilter _ (fun c hc => List.drop_subset _ _ (List.take_subset _ _ hc))]
  rw [hassemble]
  have hid : p.map Char.toUpper = p.map id := List.map_congr_left fun a ha => hup a ha
  rw [hid, List.map_id]

theorem normalizePin_idem (s : List Char) :
    normalizePin (normalizePin s) = normalizePin s := by
  unfold normalizePin
  rw [List.filter_map]
  have h1 : ((s.filter fun c => c != '-').filter
      ((fun c => c != '-') ∘ Char.toUpper)) = s.filter fun c => c != '-' := by
    apply List.filter_eq_self.mpr
    intro a ha
    have hne := List.of_mem_filter ha
    simp only [Function.comp]
    simpa using toUpper_ne_hyphen (by simpa using hne)
  rw [h1, List.map_map]
  exact List.map_congr_left fun a _ => toUpper_idem a

theorem encodeRaw_length (lat lon : ℚ) : (encodeRaw lat lon).length = 10 := by
  unfold encodeRaw
  rw [List.length_map, encodePositions_length]

theorem encodeRaw_mem {lat lon : ℚ} : ∀ c ∈ encodeRaw lat lon, c ∈ DIGIPIN_ALPHABET := by
  intro c hc
  rcases List.mem_map.mp hc with ⟨rc, hrc, he⟩
  have hb := encodePositions_bounds lat lon 10 INDIA_RECT rc hrc
  rw [← he]
  exact grid_mem_alphabet hb.1 hb.2

theorem pinPositions_encodeRaw (lat lon : ℚ) :
    pinPositions (encodeRaw lat lon) = encodePositions lat lon 10 INDIA_RECT := by
  unfold pinPositions encodeRaw
  rw [List.map_map]
  have h : ∀ rc ∈ encodePositions lat lon 10 INDIA_RECT,
      ((fun c => (CHAR_TO_POS c).getD (0, 0)) ∘ fun rc => gridLookup rc.1 rc.2) rc =
        id rc := by
    intro rc hrc
    have hb := encodePositions_bounds lat lon 10 INDIA_RECT rc hrc
    simp [Function.comp, grid_char_to_pos hb.1 hb.2]
  rw [List.map_congr_left h, List.map_id]

theorem pinPositions_length (p : List Char) : (pinPositions p).length = p.length :=
  List.length_map _ _

theorem pinPositions_bounds {p : List Char}
    (h : ∀ c ∈ p, (CHAR_TO_POS c).isSome = true) :
    ∀ rc ∈ pinPositions p, rc.1 ≤ 3 ∧ rc.2 ≤ 3 := by
  intro rc hrc
  rcases List.mem_map.mp hrc with ⟨c, hc, he⟩
  rcases Option.isSome_iff_exists.mp (h c hc) with ⟨v, hv⟩
  have hm := char_to_pos_mem hv
  rw [← he]
  simpa [hv] using ⟨hm.2.1, hm.2.2⟩

theorem decode_hyphenate_encodeRaw (lat lon : ℚ) :
    decodeDigipin (hyphenate334 (encodeRaw lat lon)) = some
      ⟨((narrowAll (encodePositions lat lon 10 INDIA_RECT) INDIA_RECT).minLat +
          (narrowAll (encodePositions lat lon 10 INDIA_RECT) INDIA_RECT).maxLat) / 2,
        ((narrowAll (encodePositions lat lon 10 INDIA_RECT) INDIA_RECT).minLon +
          (narrowAll (encodePositions lat lon 10 INDIA_RECT) INDIA_RECT).maxLon) / 2,
        narrowAll (encodePositions lat lon 10 INDIA_RECT) INDIA_RECT⟩ := by
  have hmem : ∀ c ∈ encodeRaw lat lon, c ∈ DIGIPIN_ALPHABET := encodeRaw_mem
  have hnorm : normalizePin (hyphenate334 (encodeRaw lat lon)) = encodeRaw lat lon :=
    normalizePin_hyphenate (encodeRaw_length lat lon)
      (fun c hc => (alphabet_spec c (hmem c hc)).1)
      (fun c hc => (alphabet_spec c (hmem c hc)).2.1)
  simp only [decodeDigipin, hnorm]
  rw [if_neg (not_ne_iff.mpr (encodeRaw_length lat lon))]
  rw [if_neg ?hvalid]
  · rw [pinPositions_encodeRaw]
  case hvalid =>
    rw [List.any_eq_true]
    rintro ⟨c, hc, hnone⟩
    have hsome := (alphabet_spec c (hmem c hc)).2.2
    simp [Option.isNone_iff_eq_none] at hnone
    simp [hnone] at hsome

theorem encodeDigipin_inBounds {lat lon : ℚ} (h1 : MIN_LAT ≤ lat) (h2 : lat ≤ MAX_LAT)
    (h3 : MIN_LON ≤ lon) (h4 : lon ≤ MAX_LON) :
    encodeDigipin lat lon = some (hyphenate334 (encodeRaw lat lon)) := by
  unfold encodeDigipin
  rw [if_neg]
  push_neg
  exact ⟨h1, h2, h3, h4⟩

theorem decode_some_elim {s : List Char} {res : DecodeResult}
    (h : decodeDigipin s = some res) :
    (normalizePin s).length = 10 ∧
      (∀ c ∈ normalizePin s, (CHAR_TO_POS c).isSome = true) ∧
      res.bounds = narrowAll (pinPositions (normalizePin s)) INDIA_RECT := by
  simp only [decodeDigipin] at h
  split_ifs at h with h1 h2
  refine ⟨not_ne_iff.mp h1, ?_, ?_⟩
  · intro c hc
    rcases ho : CHAR_TO_POS c with _ | v
    · exact absurd (List.any_eq_true.mpr ⟨c, hc, by rw [ho]; rfl⟩) h2
    · rfl
  · cases h
    rfl

theorem isWithinBounds_iff {lat lon : ℚ} :
    isWithinBounds lat lon = true ↔
      MIN_LAT ≤ lat ∧ lat ≤ MAX_LAT ∧ MIN_LON ≤ lon ∧ lon ≤ MAX_LON := by
  unfold isWithinBounds
  simp [Bool.and_eq_true, and_assoc, ge_iff_le]

theorem normalizePin_elems (s : List Char) :
    ∀ c ∈ normalizePin s, Char.toUpper c = c ∧ c ≠ '-' := by
  intro c hc
  unfold normalizePin at hc
  rcases List.mem_map.mp hc with ⟨a, haf, ha⟩
  have hne := List.of_mem_filter haf
  rw [← ha]
  exact ⟨toUpper_idem a, toUpper_ne_hyphen (by simpa using hne)⟩

theorem formatDigipin_eq (s : List Char) :
    formatDigipin s =
      if (normalizePin s).length = 10 then hyphenate334 (normalizePin s) else s := by
  simp only [formatDigipin]
  rcases eq_or_ne (normalizePin s).length 10 with h | h
  · rw [if_neg (not_ne_iff.mpr h), if_pos h]
  · rw [if_pos h, if_neg h]

theorem encodePositions_of_halfOpen {lat lon : ℚ} {s : List Char} {res : DecodeResult}
    (hd : decodeDigipin s = some res) (hm : halfOpenMem res.bounds lat lon) :
    encodePositions lat lon 10 INDIA_RECT = pinPositions (normalizePin s) := by
  obtain ⟨hlen, hval, hbounds⟩ := decode_some_elim hd
  have hqlen : (pinPositions (normalizePin s)).length = 10 := by
    rw [pinPositions_length, hlen]
  have hqb := pinPositions_bounds hval
  have hm' : halfOpenMem (narrowAll (pinPositions (normalizePin s)) INDIA_RECT) lat lon := by
    rwa [hbounds] at hm
  have h := encodePositions_eq_of_halfOpen (pinPositions (normalizePin s))
    spansPos_india hqb hm'
  rwa [hqlen] at h

/-! ### Evaluating the codec on concrete cells

Rational arithmetic does not reduce inside the kernel (Nat.gcd is
defined by well-founded recursion), so concrete runs of the codec are
evaluated by norm_num on the rectangle part and by decide on the
character part, glued by the lemmas below. -/

theorem decode_congr {s t : List Char} (h : normalizePin s = normalizePin t) :
    decodeDigipin s = decodeDigipin t := by
  simp only [decodeDigipin, h]

theorem decode_concrete {s pin : List Char} {ps : List (ℕ × ℕ)} {b : Rect}
    (hn : normalizePin s = pin) (hlen : pin.length = 10)
    (hval : pin.all (fun c => (CHAR_TO_POS c).isSome) = true)
    (hps : pinPositions pin = ps) (hb : narrowAll ps INDIA_RECT = b) :
    decodeDigipin s =
      some ⟨(b.minLat + b.maxLat) / 2, (b.minLon + b.maxLon) / 2, b⟩ := by
  simp only [decodeDigipin, hn]
  rw [if_neg (not_ne_iff.mpr hlen)]
  rw [if_neg ?hv]
  · rw [hps, hb]
  case hv =>
    rw [List.any_eq_true]
    rintro ⟨c, hc, hno⟩
    rw [List.all_eq_true] at hval
    have hs := hval c hc
    rw [Option.isNone_iff_eq_none] at hno
    rw [hno] at hs
    cases hs

theorem encode_of_halfOpen_decode {lat lon : ℚ} {s : List Char} {res : DecodeResult}
    (h1 : MIN_LAT ≤ lat) (h2 : lat ≤ MAX_LAT) (h3 : MIN_LON ≤ lon) (h4 : lon ≤ MAX_LON)
    (hd : decodeDigipin s = some res) (hm : halfOpenMem res.bounds lat lon) :
    encodeDigipin lat lon =
      some (hyphenate334
        ((pinPositions (normalizePin s)).map fun rc => gridLookup rc.1 rc.2)) := by
  rw [encodeDigipin_inBounds h1 h2 h3 h4]
  unfold encodeRaw
  rw [encodePositions_of_halfOpen hd hm]

/-- The cell of the reference pin 4P3JM8K4L6. -/
theorem decode_pin_P :
    decodeDigipin ['4', 'P', '3', 'J', 'M', '8', 'K', '4', 'L', '6'] = some
      ⟨6781883 / 524288, 40697695 / 524288,
        ⟨3390937 / 262144, 1695473 / 131072, 20348843 / 262144, 5087213 / 65536⟩⟩ := by
  have h := decode_concrete
    (show normalizePin ['4', 'P', '3', 'J', 'M', '8', 'K', '4', 'L', '6'] =
      ['4', 'P', '3', 'J', 'M', '8', 'K', '4', 'L', '6'] by decide)
    (by decide) (by decide)
    (show pinPositions ['4', 'P', '3', 'J', 'M', '8', 'K', '4', 'L', '6'] =
      [(2, 1), (3, 2), (1, 1), (1, 0), (3, 1), (0, 3), (2, 0), (2, 1), (3, 0), (2, 3)]
      by decide)
    (show narrowAll
        [(2, 1), (3, 2), (1, 1), (1, 0), (3, 1), (0, 3), (2, 0), (2, 1), (3, 0), (2, 3)]
        INDIA_RECT =
      ⟨3390937 / 262144, 1695473 / 131072, 20348843 / 262144, 5087213 / 65536⟩ by
      norm_num [narrowAll, narrow, INDIA_RECT, MIN_LAT, MAX_LAT, MIN_LON, MAX_LON,
        Rect.mk.injEq])
  rw [h]
  norm_num

/-- The cell immediately south of the reference cell: pin 4P3JM8K4LT. -/
theorem decode_pin_S :
    decodeDigipin ['4', 'P', '3', 'J', 'M', '8', 'K', '4', 'L', 'T'] = some
      ⟨6781865 / 524288, 40697695 / 524288,
        ⟨211933 / 16384, 3390937 / 262144, 20348843 / 262144, 5087213 / 65536⟩⟩ := by
  have h := decode_concrete
    (show normalizePin ['4', 'P', '3', 'J', 'M', '8', 'K', '4', 'L', 'T'] =
      ['4', 'P', '3', 'J', 'M', '8', 'K', '4', 'L', 'T'] by decide)
    (by decide) (by decide)
    (show pinPositions ['4', 'P', '3', 'J', 'M', '8', 'K', '4', 'L', 'T'] =
      [(2, 1), (3, 2), (1, 1), (1, 0), (3, 1), (0, 3), (2, 0), (2, 1), (3, 0), (3, 3)]
      by decide)
    (show narrowAll
        [(2, 1), (3, 2), (1, 1), (1, 0), (3, 1), (0, 3), (2, 0), (2, 1), (3, 0), (3, 3)]
        INDIA_RECT =
      ⟨211933 / 16384, 3390937 / 262144, 20348843 / 262144, 5087213 / 65536⟩ by
      norm_num [narrowAll, narrow, INDIA_RECT, MIN_LAT, MAX_LAT, MIN_LON, MAX_LON,
        Rect.mk.injEq])
  rw [h]
  norm_num

/-- The cell immediately west of the reference cell: pin 4P3JM8K4L5. -/
theorem decode_pin_W :
    decodeDigipin ['4', 'P', '3', 'J', 'M', '8', 'K', '4', 'L', '5'] = some
      ⟨6781883 / 524288, 40697677 / 524288,
        ⟨3390937 / 262144, 1695473 / 131072, 10174417 / 131072, 20348843 / 262144⟩⟩ := by
  have h := decode_concrete
    (show normalizePin ['4', 'P', '3', 'J', 'M', '8', 'K', '4', 'L', '5'] =
      ['4', 'P', '3', 'J', 'M', '8', 'K', '4', 'L', '5'] by decide)
    (by decide) (by decide)
    (show pinPositions ['4', 'P', '3', 'J', 'M', '8', 'K', '4', 'L', '5'] =
      [(2, 1), (3, 2), (1, 1), (1, 0), (3, 1), (0, 3), (2, 0), (2, 1), (3, 0), (2, 2)]
      by decide)
    (show narrowAll
        [(2, 1), (3, 2), (1, 1), (1, 0), (3, 1), (0, 3), (2, 0), (2, 1), (3, 0), (2, 2)]
        INDIA_RECT =
      ⟨3390937 / 262144, 1695473 / 131072, 10174417 / 131072, 20348843 / 262144⟩ by
      norm_num [narrowAll, narrow, INDIA_RECT, MIN_LAT, MAX_LAT, MIN_LON, MAX_LON,
        Rect.mk.injEq])
  rw [h]
  norm_num

/-- The cell of the interior point (20, 78): pin 49CTKCTKCT. -/
theorem decode_pin_Q :
    decodeDigipin ['4', '9', 'C', 'T', 'K', 'C', 'T', 'K', 'C', 'T'] = some
      ⟨10485761 / 524288, 40894471 / 524288,
        ⟨1310719 / 65536, 5242885 / 262144, 20447231 / 262144, 2555905 / 32768⟩⟩ := by
  have h := decode_concrete
    (show normalizePin ['4', '9', 'C', 'T', 'K', 'C', 'T', 'K', 'C', 'T'] =
      ['4', '9', 'C', 'T', 'K', 'C', 'T', 'K', 'C', 'T'] by decide)
    (by decide) (by decide)
    (show pinPositions ['4', '9', 'C', 'T', 'K', 'C', 'T', 'K', 'C', 'T'] =
      [(2, 1), (0, 2), (0, 1), (3, 3), (2, 0), (0, 1), (3, 3), (2, 0), (0, 1), (3, 3)]
      by decide)
    (show narrowAll
        [(2, 1), (0, 2), (0, 1), (3, 3), (2, 0), (0, 1), (3, 3), (2, 0), (0, 1), (3, 3)]
        INDIA_RECT =
      ⟨1310719 / 65536, 5242885 / 262144, 20447231 / 262144, 2555905 / 32768⟩ by
      norm_num [narrowAll, narrow, INDIA_RECT, MIN_LAT, MAX_LAT, MIN_LON, MAX_LON,
        Rect.mk.injEq])
  rw [h]
  norm_num

/-! ### The claims -/

/-- C1. Round-trip containment: for every coordinate pair with
2.5 <= lat <= 38.5 and 63.5 <= lon <= 99.5, encodeDigipin returns a code
and decodeDigipin of that code returns a bounds rectangle that contains
the pair. -/
theorem roundtrip_containment (lat lon : ℚ) (h1 : MIN_LAT ≤ lat) (h2 : lat ≤ MAX_LAT)
    (h3 : MIN_LON ≤ lon) (h4 : lon ≤ MAX_LON) :
    ∃ code res, encodeDigipin lat lon = some code ∧ decodeDigipin code = some res ∧
      res.bounds.minLat ≤ lat ∧ lat ≤ res.bounds.maxLat ∧
      res.bounds.minLon ≤ lon ∧ lon ≤ res.bounds.maxLon := by
  have hc := encode_narrowAll_contains 10 spansPos_india
    (⟨h1, h2, h3, h4⟩ : containsPt INDIA_RECT lat lon)
  exact ⟨hyphenate334 (encodeRaw lat lon), _, encodeDigipin_inBounds h1 h2 h3 h4,
    decode_hyphenate_encodeRaw lat lon, hc.1, hc.2.1, hc.2.2.1, hc.2.2.2⟩

/-- Witness for C1 at the in-bounds point (20, 78). -/
theorem roundtrip_containment_witness :
    ∃ code res, encodeDigipin 20 78 = some code ∧ decodeDigipin code = some res ∧
      res.bounds.minLat ≤ 20 ∧ (20 : ℚ) ≤ res.bounds.maxLat ∧
      res.bounds.minLon ≤ 78 ∧ (78 : ℚ) ≤ res.bounds.maxLon :=
  roundtrip_containment 20 78 (by norm_num [MIN_LAT]) (by norm_num [MAX_LAT])
    (by norm_num [MIN_LON]) (by norm_num [MAX_LON])

/-- C2. Known-vector self-consistency: decoding 4P3-JM8-K4L6 returns a
center point whose re-encoding produces exactly the string 4P3-JM8-K4L6. -/
theorem known_vector_selfconsistent :
    ∃ res,
      decodeDigipin ['4', 'P', '3', '-', 'J', 'M', '8', '-', 'K', '4', 'L', '6'] =
        some res ∧
      encodeDigipin res.lat res.lon =
        some ['4', 'P', '3', '-', 'J', 'M', '8', '-', 'K', '4', 'L', '6'] := by
  have hdec : decodeDigipin ['4', 'P', '3', '-', 'J', 'M', '8', '-', 'K', '4', 'L', '6'] =
      some ⟨6781883 / 524288, 40697695 / 524288,
        ⟨3390937 / 262144, 1695473 / 131072, 20348843 / 262144, 5087213 / 65536⟩⟩ :=
    (decode_congr (by decide)).trans decode_pin_P
  refine ⟨_, hdec,
    Eq.trans (encode_of_halfOpen_decode ?_ ?_ ?_ ?_ hdec ?_) (by decide)⟩
  · norm_num [MIN_LAT]
  · norm_num [MAX_LAT]
  · norm_num [MIN_LON]
  · norm_num [MAX_LON]
  · unfold halfOpenMem
    norm_num

/-- C3. Out-of-range rejection: encodeDigipin returns the null sentinel
exactly when the coordinate falls outside the inclusive bounds, which is
exactly when isWithinBounds is false; in particular encode(0, 0) is null.
Both functions are total, so no exception is raised. -/
theorem out_of_range_rejection (lat lon : ℚ) :
    (encodeDigipin lat lon = none ↔
        (lat < MIN_LAT ∨ lat > MAX_LAT ∨ lon < MIN_LON ∨ lon > MAX_LON)) ∧
      (encodeDigipin lat lon = none ↔ isWithinBounds lat lon = false) ∧
      encodeDigipin 0 0 = none := by
  have hkey : encodeDigipin lat lon = none ↔
      (lat < MIN_LAT ∨ lat > MAX_LAT ∨ lon < MIN_LON ∨ lon > MAX_LON) := by
    unfold encodeDigipin
    split_ifs with h
    · simpa using h
    · simpa using h
  have hwb : isWithinBounds lat lon = false ↔
      (lat < MIN_LAT ∨ lat > MAX_LAT ∨ lon < MIN_LON ∨ lon > MAX_LON) := by
    rw [← Bool.not_eq_true, isWithinBounds_iff]
    push_neg
    constructor
    · intro h
      by_cases ha : MIN_LAT ≤ lat
      · by_cases hb : lat ≤ MAX_LAT
        · by_cases hc : MIN_LON ≤ lon
          · exact Or.inr (Or.inr (Or.inr (h ha hb hc)))
          · exact Or.inr (Or.inr (Or.inl (not_le.mp hc)))
        · exact Or.inr (Or.inl (not_le.mp hb))
      · exact Or.inl (not_le.mp ha)
    · intro h ha hb hc
      rcases h with h | h | h | h
      · exact absurd ha (not_le.mpr h)
      · exact absurd hb (not_le.mpr h)
      · exact absurd hc (not_le.mpr h)
      · exact h
  have h00 : encodeDigipin 0 0 = none := by
    unfold encodeDigipin
    rw [if_pos (Or.inl (show (0 : ℚ) < MIN_LAT by norm_num [MIN_LAT]))]
  exact ⟨hkey, hkey.trans hwb.symm, h00⟩

/-- C4. Validation shared by decode and isValidDigipin: decode returns null
exactly when the hyphen-stripped upper-cased pin is not 10 characters long
or contains a character outside the 16-symbol alphabet, and isValidDigipin
returns true in exactly the complementary cases. -/
theorem validation_predicate (s : List Char) :
    (decodeDigipin s = none ↔
        ((normalizePin s).length ≠ 10 ∨ ∃ c ∈ normalizePin s, c ∉ DIGIPIN_ALPHABET)) ∧
      (isValidDigipin s = true ↔
        ((normalizePin s).length = 10 ∧ ∀ c ∈ normalizePin s, c ∈ DIGIPIN_ALPHABET)) := by
  constructor
  · simp only [decodeDigipin]
    split_ifs with h1 h2
    · exact iff_of_true rfl (Or.inl h1)
    · refine iff_of_true rfl (Or.inr ?_)
      rw [List.any_eq_true] at h2
      rcases h2 with ⟨c, hc, hnone⟩
      refine ⟨c, hc, fun hmem => ?_⟩
      have hsome := char_to_pos_isSome_iff.mpr hmem
      rw [Option.isNone_iff_eq_none] at hnone
      rw [hnone] at hsome
      cases hsome
    · refine iff_of_false (by simp) ?_
      rintro (h | ⟨c, hc, hna⟩)
      · exact h1 h
      · apply hna
        rw [← char_to_pos_isSome_iff]
        rcases ho : CHAR_TO_POS c with _ | v
        · exact absurd (List.any_eq_true.mpr ⟨c, hc, by rw [ho]; rfl⟩) h2
        · rfl
  · simp only [isValidDigipin]
    rw [Bool.and_eq_true, beq_iff_eq, List.all_eq_true]
    constructor
    · rintro ⟨hl, ha⟩
      exact ⟨hl, fun c hc => char_to_pos_isSome_iff.mp (ha c hc)⟩
    · rintro ⟨hl, ha⟩
      exact ⟨hl, fun c hc => char_to_pos_isSome_iff.mpr (ha c hc)⟩

/-- C5. Boundary clamping safety: at every one of the 10 iterations of
encodeDigipin on an in-bounds input - including coordinates exactly on a
subdivision line or the region boundary - the clamped row and column lie
in [0, 3] and the grid lookup is a defined grid character, so encode (a
total function) never throws; the floor-and-clamp rule picks one cell
deterministically. -/
theorem boundary_clamping (lat lon : ℚ) (_hw : isWithinBounds lat lon = true)
    (rc : ℕ × ℕ) (hrc : rc ∈ encodePositions lat lon 10 INDIA_RECT) :
    rc.1 ≤ 3 ∧ rc.2 ≤ 3 ∧ CHAR_TO_POS (gridLookup rc.1 rc.2) = some rc := by
  have hb := encodePositions_bounds lat lon 10 INDIA_RECT rc hrc
  exact ⟨hb.1, hb.2, grid_char_to_pos hb.1 hb.2⟩

/-- Witness for C5 at the in-bounds point (20, 78), whose first-level
position is row 2, column 1. -/
theorem boundary_clamping_witness :
    2 ≤ 3 ∧ 1 ≤ 3 ∧ CHAR_TO_POS (gridLookup 2 1) = some (2, 1) := by
  have hE : encodePositions 20 78 10 INDIA_RECT =
      pinPositions (normalizePin ['4', '9', 'C', 'T', 'K', 'C', 'T', 'K', 'C', 'T']) :=
    encodePositions_of_halfOpen decode_pin_Q (by unfold halfOpenMem; norm_num)
  exact boundary_clamping 20 78 (by rw [isWithinBounds_iff]; norm_num [MIN_LAT, MAX_LAT, MIN_LON, MAX_LON])
    (2, 1) (by rw [hE]; decide)

/-- C6. Alphabet closure and output format: for every in-bounds input,
encodeDigipin returns the 3-3-4 hyphenation of a 10-symbol sequence drawn
from the 16-symbol alphabet, 12 characters in all, and the result passes
isValidDigipin. -/
theorem encode_format_alphabet (lat lon : ℚ) (h1 : MIN_LAT ≤ lat) (h2 : lat ≤ MAX_LAT)
    (h3 : MIN_LON ≤ lon) (h4 : lon ≤ MAX_LON) :
    ∃ raw, encodeDigipin lat lon = some (hyphenate334 raw) ∧ raw.length = 10 ∧
      (∀ c ∈ raw, c ∈ DIGIPIN_ALPHABET) ∧ (hyphenate334 raw).length = 12 ∧
      isValidDigipin (hyphenate334 raw) = true := by
  refine ⟨encodeRaw lat lon, encodeDigipin_inBounds h1 h2 h3 h4,
    encodeRaw_length lat lon, encodeRaw_mem, ?_, ?_⟩
  · have hl := encodeRaw_length lat lon
    unfold hyphenate334
    simp [hl]
  · have hnorm := normalizePin_hyphenate (encodeRaw_length lat lon)
      (fun c hc => (alphabet_spec c (encodeRaw_mem c hc)).1)
      (fun c hc => (alphabet_spec c (encodeRaw_mem c hc)).2.1)
    simp only [isValidDigipin, hnorm]
    rw [Bool.and_eq_true, beq_iff_eq, List.all_eq_true]
    exact ⟨encodeRaw_length lat lon,
      fun c hc => (alphabet_spec c (encodeRaw_mem c hc)).2.2⟩

/-- Witness for C6 at the in-bounds point (10, 70). -/
theorem encode_format_alphabet_witness :
    ∃ raw, encodeDigipin 10 70 = some (hyphenate334 raw) ∧ raw.length = 10 ∧
      (∀ c ∈ raw, c ∈ DIGIPIN_ALPHABET) ∧ (hyphenate334 raw).length = 12 ∧
      isValidDigipin (hyphenate334 raw) = true :=
  encode_format_alphabet 10 70 (by norm_num [MIN_LAT]) (by norm_num [MAX_LAT])
    (by norm_num [MIN_LON]) (by norm_num [MAX_LON])

/-- C7. formatDigipin passthrough and 3-3-4 grouping: when the normalized
input is not exactly 10 characters the input comes back unchanged,
otherwise the normalized pin is returned with hyphens after the 3rd and
6th symbols; the function is total, so it never fails. -/
theorem format_passthrough_334 (s : List Char) :
    formatDigipin s =
      if (normalizePin s).length = 10 then hyphenate334 (normalizePin s) else s :=
  formatDigipin_eq s

/-- C8. Idempotent formatting: formatDigipin of a formatDigipin result is
that result, for every input. -/
theorem format_idempotent (s : List Char) :
    formatDigipin (formatDigipin s) = formatDigipin s := by
  rcases eq_or_ne (normalizePin s).length 10 with h | h
  · have helems := normalizePin_elems s
    have hnorm := normalizePin_hyphenate h (fun c hc => (helems c hc).1)
      (fun c hc => (helems c hc).2)
    rw [formatDigipin_eq s, if_pos h, formatDigipin_eq, hnorm, if_pos h]
  · rw [formatDigipin_eq s, if_neg h, formatDigipin_eq s, if_neg h]

/-- C10. Hyphen-placement and case insensitivity of parsing: decoding and
validating any string give the same outcome as decoding and validating
its hyphen-stripped upper-cased form, wherever the hyphens sat and
whatever the letter case. -/
theorem parse_normalization_invariance (s : List Char) :
    decodeDigipin s = decodeDigipin (normalizePin s) ∧
      isValidDigipin s = isValidDigipin (normalizePin s) := by
  constructor
  · simp only [decodeDigipin, normalizePin_idem]
  · simp only [isValidDigipin, normalizePin_idem]

/-- C9 counterexample: the closed bounds rectangle decoded from
4P3JM8K4L6 contains both the cell center and the midpoint of the cell's
minimum-latitude edge, yet those two in-bounds coordinates encode to
different codes - a coordinate on a shared cell boundary lies (in the
closed sense) in two adjacent cells at once, so lying in the same closed
bounds rectangle does not force identical codes. -/
theorem monotonic_resolution_counterexample :
    decodeDigipin ['4', 'P', '3', 'J', 'M', '8', 'K', '4', 'L', '6'] = some
        ⟨6781883 / 524288, 40697695 / 524288,
          ⟨3390937 / 262144, 1695473 / 131072, 20348843 / 262144, 5087213 / 65536⟩⟩ ∧
      containsPt ⟨3390937 / 262144, 1695473 / 131072, 20348843 / 262144, 5087213 / 65536⟩
        (6781883 / 524288) (40697695 / 524288) ∧
      containsPt ⟨3390937 / 262144, 1695473 / 131072, 20348843 / 262144, 5087213 / 65536⟩
        (3390937 / 262144) (40697695 / 524288) ∧
      isWithinBounds (6781883 / 524288) (40697695 / 524288) = true ∧
      isWithinBounds (3390937 / 262144) (40697695 / 524288) = true ∧
      encodeDigipin (6781883 / 524288) (40697695 / 524288) ≠
        encodeDigipin (3390937 / 262144) (40697695 / 524288) := by
  refine ⟨decode_pin_P, ?_, ?_, ?_, ?_, ?_⟩
  · unfold containsPt; norm_num
  · unfold containsPt; norm_num
  · rw [isWithinBounds_iff]; norm_num [MIN_LAT, MAX_LAT, MIN_LON, MAX_LON]
  · rw [isWithinBounds_iff]; norm_num [MIN_LAT, MAX_LAT, MIN_LON, MAX_LON]
  · have e1 : encodeDigipin (6781883 / 524288) (40697695 / 524288) =
        some (hyphenate334
          ((pinPositions (normalizePin ['4', 'P', '3', 'J', 'M', '8', 'K', '4', 'L', '6'])).map
            fun rc => gridLookup rc.1 rc.2)) :=
      encode_of_halfOpen_decode (by norm_num [MIN_LAT]) (by norm_num [MAX_LAT])
        (by norm_num [MIN_LON]) (by norm_num [MAX_LON]) decode_pin_P
        (by unfold halfOpenMem; norm_num)
    have e2 : encodeDigipin (3390937 / 262144) (40697695 / 524288) =
        some (hyphenate334
          ((pinPositions (normalizePin ['4', 'P', '3', 'J', 'M', '8', 'K', '4', 'L', 'T'])).map
            fun rc => gridLookup rc.1 rc.2)) :=
      encode_of_halfOpen_decode (by norm_num [MIN_LAT]) (by norm_num [MAX_LAT])
        (by norm_num [MIN_LON]) (by norm_num [MAX_LON]) decode_pin_S
        (by unfold halfOpenMem; norm_num)
    rw [e1, e2]
    decide

/-- C9 (amended). Monotonic resolution on half-open cells: two in-bounds
coordinates lying in the half-open refinement of one decoded 10-symbol
cell (its minimum-latitude and maximum-longitude edges excluded, matching
the floor semantics of the encoder) always receive identical codes; and
the cells of two decoded codes that are horizontally or vertically
edge-adjacent carry codes differing in their last symbol. -/
theorem monotonic_resolution_amended :
    (∀ (lat1 lon1 lat2 lon2 : ℚ) (s : List Char) (res : DecodeResult),
        isWithinBounds lat1 lon1 = true → isWithinBounds lat2 lon2 = true →
        decodeDigipin s = some res →
        halfOpenMem res.bounds lat1 lon1 → halfOpenMem res.bounds lat2 lon2 →
        encodeDigipin lat1 lon1 = encodeDigipin lat2 lon2) ∧
      (∀ (s1 s2 : List Char) (r1 r2 : DecodeResult),
        decodeDigipin s1 = some r1 → decodeDigipin s2 = some r2 →
        ((r1.bounds.maxLat = r2.bounds.maxLat ∧ r1.bounds.maxLon = r2.bounds.minLon) ∨
          (r1.bounds.minLon = r2.bounds.minLon ∧ r1.bounds.minLat = r2.bounds.maxLat)) →
        (normalizePin s1).getLast? ≠ (normalizePin s2).getLast?) := by
  constructor
  · intro lat1 lon1 lat2 lon2 s res hw1 hw2 hd hm1 hm2
    obtain ⟨a1, a2, a3, a4⟩ := isWithinBounds_iff.mp hw1
    obtain ⟨b1, b2, b3, b4⟩ := isWithinBounds_iff.mp hw2
    rw [encodeDigipin_inBounds a1 a2 a3 a4, encodeDigipin_inBounds b1 b2 b3 b4]
    unfold encodeRaw
    rw [encodePositions_of_halfOpen hd hm1, encodePositions_of_halfOpen hd hm2]
  · intro s1 s2 r1 r2 hd1 hd2 hadj heq
    obtain ⟨hlen1, hval1, hb1⟩ := decode_some_elim hd1
    obtain ⟨hlen2, hval2, hb2⟩ := decode_some_elim hd2
    have hne1 : normalizePin s1 ≠ [] := by
      intro h0; rw [h0] at hlen1; cases hlen1
    rcases hg1 : (normalizePin s1).getLast? with _ | c
    · exact hne1 (List.getLast?_eq_none_iff.mp hg1)
    have hg2 : (normalizePin s2).getLast? = some c := by rw [← heq, hg1]
    have hq1 : (pinPositions (normalizePin s1)).getLast? =
        some ((CHAR_TO_POS c).getD (0, 0)) := by
      unfold pinPositions
      rw [List.getLast?_map, hg1]
      rfl
    have hq2 : (pinPositions (normalizePin s2)).getLast? =
        some ((CHAR_TO_POS c).getD (0, 0)) := by
      unfold pinPositions
      rw [List.getLast?_map, hg2]
      rfl
    have hr1 := digitVal_mod_getLast? Prod.fst hq1
    have hr2 := digitVal_mod_getLast? Prod.fst hq2
    have hc1 := digitVal_mod_getLast? Prod.snd hq1
    have hc2 := digitVal_mod_getLast? Prod.snd hq2
    have hl1 : (pinPositions (normalizePin s1)).length = 10 := by
      rw [pinPositions_length, hlen1]
    have hl2 : (pinPositions (normalizePin s2)).length = 10 := by
      rw [pinPositions_length, hlen2]
    obtain ⟨f1a, f1b, f1c, f1d⟩ := narrowAll_formula (pinPositions (normalizePin s1)) INDIA_RECT
    obtain ⟨f2a, f2b, f2c, f2d⟩ := narrowAll_formula (pinPositions (normalizePin s2)) INDIA_RECT
    rw [hl1] at f1a f1b f1c f1d
    rw [hl2] at f2a f2b f2c f2d
    rcases hadj with ⟨_, hlon⟩ | ⟨hlon, hlat⟩
    · rw [hb1, hb2] at hlon
      rw [f1d, f2c] at hlon
      have h36 : INDIA_RECT.maxLon - INDIA_RECT.minLon = 36 := by
        norm_num [INDIA_RECT, MIN_LON, MAX_LON]
      rw [h36] at hlon
      have hQ : ((digitVal Prod.snd (pinPositions (normalizePin s1)) : ℚ) + 1) =
          (digitVal Prod.snd (pinPositions (normalizePin s2)) : ℚ) := by
        field_simp at hlon
        linarith
      have hN : digitVal Prod.snd (pinPositions (normalizePin s1)) + 1 =
          digitVal Prod.snd (pinPositions (normalizePin s2)) := by exact_mod_cast hQ
      omega
    · rw [hb1, hb2] at hlat
      rw [f1b, f2a] at hlat
      have h36 : INDIA_RECT.maxLat - INDIA_RECT.minLat = 36 := by
        norm_num [INDIA_RECT, MIN_LAT, MAX_LAT]
      rw [h36] at hlat
      have hQ : ((digitVal Prod.fst (pinPositions (normalizePin s1)) : ℚ) + 1) =
          (digitVal Prod.fst (pinPositions (normalizePin s2)) : ℚ) := by
        field_simp at hlat
        linarith
      have hN : digitVal Prod.fst (pinPositions (normalizePin s1)) + 1 =
          digitVal Prod.fst (pinPositions (normalizePin s2)) := by exact_mod_cast hQ
      omega

/-- Witness for the amended C9: the center of the 4P3JM8K4L6 cell and a
second interior point of the same cell encode identically, and the
horizontally adjacent pins 4P3JM8K4L5 and 4P3JM8K4L6 end in different
symbols. -/
theorem monotonic_resolution_amended_witness :
    encodeDigipin (6781883 / 524288) (40697695 / 524288) =
        encodeDigipin (6781890 / 524288) (40697693 / 524288) ∧
      (normalizePin ['4', 'P', '3', 'J', 'M', '8', 'K', '4', 'L', '5']).getLast? ≠
        (normalizePin ['4', 'P', '3', 'J', 'M', '8', 'K', '4', 'L', '6']).getLast? := by
  constructor
  · exact monotonic_resolution_amended.1 (6781883 / 524288) (40697695 / 524288)
      (6781890 / 524288) (40697693 / 524288)
      ['4', 'P', '3', 'J', 'M', '8', 'K', '4', 'L', '6']
      ⟨6781883 / 524288, 40697695 / 524288,
        ⟨3390937 / 262144, 1695473 / 131072, 20348843 / 262144, 5087213 / 65536⟩⟩
      (by rw [isWithinBounds_iff]; norm_num [MIN_LAT, MAX_LAT, MIN_LON, MAX_LON])
      (by rw [isWithinBounds_iff]; norm_num [MIN_LAT, MAX_LAT, MIN_LON, MAX_LON])
      decode_pin_P (by unfold halfOpenMem; norm_num) (by unfold halfOpenMem; norm_num)
  · exact monotonic_resolution_amended.2
      ['4', 'P', '3', 'J', 'M', '8', 'K', '4', 'L', '5']
      ['4', 'P', '3', 'J', 'M', '8', 'K', '4', 'L', '6']
      ⟨6781883 / 524288, 40697677 / 524288,
        ⟨3390937 / 262144, 1695473 / 131072, 10174417 / 131072, 20348843 / 262144⟩⟩
      ⟨6781883 / 524288, 40697695 / 524288,
        ⟨3390937 / 262144, 1695473 / 131072, 20348843 / 262144, 5087213 / 65536⟩⟩
      decode_pin_W decode_pin_P (Or.inl ⟨rfl, rfl⟩)

end Digipin
